import Mathlib

/-!
Verification of the scrobble resolution engine of the anifunnel media-server
relay.  The Rust sources are shallowly embedded: strings are lists of Unicode
scalar values (`List Char`), the `f64` similarity arithmetic of the `strsim`
crate is modelled over `ℚ` (exact for the magnitudes that occur: a normalized
Levenshtein score only rounds at string lengths near 2^52), fallible or
panicking code returns `Option`, and the one asynchronous request handler is
modelled as a pure function of its inputs together with the responses of its
collaborators (database lookups and the remote AniList client).
-/

set_option linter.unusedVariables false
set_option linter.unreachableTactic false
set_option linter.unusedTactic false

/-- Model of Rust `str::to_lowercase` restricted to the ASCII fragment
(`Char.toLower` lowercases only `A`–`Z`); no claim in this development
depends on non-ASCII case mapping. -/
def toLower (s : List Char) : List Char := s.map Char.toLower

/-- One cell-by-cell step of the Levenshtein dynamic program: given the query
character `x`, the remaining target characters, the diagonal value, the rest
of the previous row and the value to the left, produce the rest of the
current row. -/
def levRowGo (x : Char) : List Char → Nat → List Nat → Nat → List Nat
  | y :: ys, diag, up :: rest, left =>
      let c := min (min (up + 1) (left + 1)) (diag + if x = y then 0 else 1)
      c :: levRowGo x ys up rest c
  | _, _, _, _ => []

/-- Advance the Levenshtein dynamic program by one query character. -/
def levRow (t : List Char) (prev : List Nat) (x : Char) : List Nat :=
  match prev with
  | [] => []
  | d0 :: rest => (d0 + 1) :: levRowGo x t d0 rest (d0 + 1)

/-- Levenshtein edit distance over Unicode scalar values, as computed by the
`strsim` crate (unit insert/delete/substitute costs, row-based dynamic
program). -/
def levenshteinDistance (s t : List Char) : Nat :=
  (s.foldl (levRow t) (List.range (t.length + 1))).getLastD 0

/-- `strsim::normalized_levenshtein`: `1` for two empty strings, otherwise
`1 - distance / max(len_a, len_b)` (lengths counted in chars). -/
def normalized_levenshtein (a b : List Char) : ℚ :=
  if a = [] ∧ b = [] then 1
  else 1 - ((levenshteinDistance a b : ℕ) : ℚ) / ((max a.length b.length : ℕ) : ℚ)

/-! ### The massaging regexes

Each regex in `MediaTitle::find_match` is anchored at the end of the string,
so `Regex::replace` (which removes the leftmost match) removes the longest
end-anchored occurrence.  Every rule is embedded as a matcher on the
*reversed* character list returning the reversed remainder on success.
`\d` is modelled as an ASCII digit. -/

/-- After the (reversed) body of a parenthesizable decoration: consume an
optional opening parenthesis and the mandatory leading space.  Preferring the
parenthesis mirrors the regex's leftmost (longest, here) match. -/
def afterOpenParen : List Char → Option (List Char)
  | '(' :: ' ' :: rest => some rest
  | ' ' :: rest => some rest
  | _ => none

/-- Generic matcher for the ` \(?body\)?$` regexes, on reversed input: an
optional closing parenthesis, then the reversed body via `core`, then an
optional opening parenthesis and the leading space. -/
def suffixRuleRev (core : List Char → Option (List Char)) (rev : List Char) :
    Option (List Char) :=
  match rev with
  | ')' :: r1 =>
    match core r1 with
    | some r2 => afterOpenParen r2
    | none => none
  | _ =>
    match core rev with
    | some r2 => afterOpenParen r2
    | none => none

/-- Reversed body of `20[2-4]\d` (a year 2020–2049). -/
def yearCore : List Char → Option (List Char)
  | d2 :: d1 :: '0' :: '2' :: rest =>
      if (d1 = '2' ∨ d1 = '3' ∨ d1 = '4') ∧ d2.isDigit then some rest else none
  | _ => none

/-- Reversed body of `word\d` for a fixed word (given reversed), e.g.
`cour \d`. -/
def wordDigitCore (wordRev : List Char) (l : List Char) : Option (List Char) :=
  match l with
  | d :: rest =>
      if d.isDigit ∧ wordRev.isPrefixOf rest then some (rest.drop wordRev.length)
      else none
  | [] => none

/-- Rule for ` \(?20[2-4]\d\)?$` (`XXX (2023)`). -/
def yearRule (rev : List Char) : Option (List Char) := suffixRuleRev yearCore rev

/-- Rule for ` \(?cour \d\)?$` (`XXX Cour 2`, `XXX (Cour 2)`). -/
def courRule (rev : List Char) : Option (List Char) :=
  suffixRuleRev (wordDigitCore (("cour ").toList.reverse)) rev

/-- Rule for ` \(?season \d\)?$` (`XXX Season 2`, `XXX (Season 2)`). -/
def seasonRule (rev : List Char) : Option (List Char) :=
  suffixRuleRev (wordDigitCore (("season ").toList.reverse)) rev

/-- Rule for ` \(?part \d\)?$` (`XXX Part 2`, `XXX (Part 2)`). -/
def partRule (rev : List Char) : Option (List Char) :=
  suffixRuleRev (wordDigitCore (("part ").toList.reverse)) rev

/-- Consume a nonempty run of digits followed by a space, on reversed input
(the first character is already known to be a digit). -/
def digitsThenSpaceRev : List Char → Option (List Char)
  | [] => none
  | c :: rest =>
      if c = ' ' then some rest
      else if c.isDigit then digitsThenSpaceRev rest
      else none

/-- Is `(o1, o2)` one of the ordinal suffixes st/nd/rd/th (in reading
order)? -/
def ordinalPair (o1 o2 : Char) : Bool :=
  (o1 = 's' ∧ o2 = 't') ∨ (o1 = 'n' ∧ o2 = 'd') ∨
  (o1 = 'r' ∧ o2 = 'd') ∨ (o1 = 't' ∧ o2 = 'h')

/-- Rule for ` \d+(st|nd|rd|th) season$` (`XXX 2nd Season`), on reversed
input. -/
def ordinalSeasonRule (rev : List Char) : Option (List Char) :=
  match rev with
  | 'n' :: 'o' :: 's' :: 'a' :: 'e' :: 's' :: ' ' :: o2 :: o1 :: d :: rest =>
      if ordinalPair o1 o2 ∧ d.isDigit then digitsThenSpaceRev (d :: rest)
      else none
  | _ => none

/-- Rule for ` \d$` (a trailing bare digit, `XXX 2`). -/
def bareDigitRule (rev : List Char) : Option (List Char) :=
  match rev with
  | d :: ' ' :: rest => if d.isDigit then some rest else none
  | _ => none

/-- `Regex::replace(&s, "")` for one end-anchored rule: remove the matched
suffix if the rule matches, otherwise leave the string unchanged. -/
def stripSuffix (rule : List Char → Option (List Char)) (s : List Char) :
    List Char :=
  match rule s.reverse with
  | some r => r.reverse
  | none => s

/-- The `massaging_regexes` array of `MediaTitle::find_match`, in source
order. -/
def massaging_regexes : List (List Char → Option (List Char)) :=
  [yearRule, ordinalSeasonRule, courRule, seasonRule, partRule, bareDigitRule]

/-- `utils::remove_regexes`: fold the rules over the string, each replacing
its (first, hence end-anchored) match with the empty string. -/
def remove_regexes (rules : List (List Char → Option (List Char)))
    (s : List Char) : List Char :=
  rules.foldl (fun acc rule => stripSuffix rule acc) s

/-- The decoration-stripping stage of the fallback pass. -/
def massage (s : List Char) : List Char := remove_regexes massaging_regexes s

/-! ### `utils::remove_special_surrounding_characters`

The Rust function walks `char_indices` forwards and backwards mutating
`start_pos`/`end_pos`, then slices `&value[start_pos..=end_pos]`.  We model it
at char granularity.  The function is partial: on an empty string the
boundary-fixing `while` loop never terminates, and when the two scans cross by
more than one position the slice panics; both failures are modelled as
`none`.  `char::is_alphanumeric` is modelled on its ASCII fragment
(`Char.isAlphanum`); no claim below depends on a non-ASCII classification. -/

/-- The leading-character scan keeps alphanumerics and a literal `(`. -/
def leadingKeep (c : Char) : Bool := c.isAlphanum || c = '('

/-- The trailing-character scan keeps alphanumerics and a literal `)`. -/
def trailingKeep (c : Char) : Bool := c.isAlphanum || c = ')'

/-- The forward scan of `remove_special_surrounding_characters`: assign the
current index each iteration, stop at the first character satisfying `p`;
returns the last assigned index (`last` when the list is empty). -/
def loopPos (p : Char → Bool) : List Char → Nat → Nat → Nat
  | [], _, last => last
  | c :: rest, i, _ => if p c then i else loopPos p rest (i + 1) i

/-- The backward scan: indices run downwards from `i`. -/
def loopPosRev (p : Char → Bool) : List Char → Nat → Nat → Nat
  | [], _, last => last
  | c :: rest, i, _ => if p c then i else loopPosRev p rest (i - 1) i

/-- Final `start_pos` of the forward scan. -/
def startPos (cs : List Char) : Nat := loopPos leadingKeep cs 0 0

/-- Final `end_pos` of the backward scan. -/
def endPos (cs : List Char) : Nat :=
  loopPosRev trailingKeep cs.reverse (cs.length - 1) 0

/-- `utils::remove_special_surrounding_characters`.  `none` models the two
ways the Rust code fails to return: the infinite `is_char_boundary` loop on
the empty string, and the slice panic when `start_pos > end_pos + 1`. -/
def remove_special_surrounding_characters (cs : List Char) :
    Option (List Char) :=
  if cs = [] then none
  else if startPos cs ≤ endPos cs + 1 then
    some ((cs.drop (startPos cs)).take (endPos cs + 1 - startPos cs))
  else none

/-- The full fallback normalization applied to a (lower-cased) title in
`MediaTitle::find_match`: decoration stripping followed by
surrounding-character trimming. -/
def massagedForm (s : List Char) : Option (List Char) :=
  remove_special_surrounding_characters (massage s)

/-! ### `anilist::data` — the watch list and the title matcher -/

/-- `anilist::data::MediaTitle` (string fields as char lists). -/
structure MediaTitle where
  romaji : Option (List Char)
  english : Option (List Char)
  native : Option (List Char)
  userPreferred : List Char
deriving DecidableEq

/-- `anilist::data::Media`. -/
structure Media where
  id : Int
  title : MediaTitle
deriving DecidableEq

/-- `anilist::data::MediaList` (one watch-list entry). -/
structure MediaList where
  id : Int
  progress : Int
  media : Media
deriving DecidableEq

/-- `anilist::data::MediaListGroup` (the flattened watch list). -/
structure MediaListGroup where
  entries : List MediaList
deriving DecidableEq

/-- `anilist::MINIMUM_CONFIDENCE` (0.8). -/
def MINIMUM_CONFIDENCE : ℚ := 4/5

/-- The lower-cased available title variants of `MediaTitle::find_match`:
romaji, english, native in that order, absent ones skipped; `userPreferred`
is never included. -/
def MediaTitle.variants (t : MediaTitle) : List (List Char) :=
  ([t.romaji, t.english, t.native].filterMap id).map toLower

/-- The direct fuzzy pass of `MediaTitle::find_match`: fold the titles,
keeping the running best normalized Levenshtein similarity (update on strict
improvement), starting from `init`. -/
def directPass (s : List Char) (titles : List (List Char)) (init : ℚ) : ℚ :=
  titles.foldl
    (fun b v => if b < normalized_levenshtein s v then normalized_levenshtein s v else b)
    init

/-- The title loop of the fallback pass, after the massaged query `mq` has
been computed: massage and trim each variant (propagating a trimming panic),
score it with the fixed 0.05 penalty floored at 0, and keep the running
best. -/
def fallbackPass (mq : List Char) : List (List Char) → ℚ → Option ℚ
  | [], b => some b
  | v :: rest, b =>
    match massagedForm v with
    | none => none
    | some mv =>
      let c := max (normalized_levenshtein mq mv - 1/20) 0
      fallbackPass mq rest (if b < c then c else b)

/-- `MediaTitle::find_match`: exact pass over the lower-cased variants, then
the direct fuzzy pass (returned immediately when it reaches the confidence
threshold), then the fallback pass on massaged strings.  `none` models a
panic of the surrounding-character trimming inside the fallback pass. -/
def MediaTitle.find_match (t : MediaTitle) (s : List Char) : Option ℚ :=
  if s ∈ t.variants then some 1
  else if MINIMUM_CONFIDENCE ≤ directPass s t.variants 0 then
    some (directPass s t.variants 0)
  else
    match massagedForm s with
    | none => none
    | some mq => fallbackPass mq t.variants (directPass s t.variants 0)

/-- `MediaListGroup::find_id`: first entry with the given id. -/
def MediaListGroup.find_id (g : MediaListGroup) (id : Int) : Option MediaList :=
  g.entries.find? (fun media_list => media_list.id == id)

/-- The entry loop of `MediaListGroup::find_match`: return the first entry
scoring exactly 1 immediately, otherwise track the best (score, entry) pair,
updating on strict improvement; after the loop return the tracked entry only
if its score reaches `MINIMUM_CONFIDENCE`.  `none` models a scoring panic. -/
def find_match_go (q : List Char) : List MediaList → ℚ → Option MediaList →
    Option (Option MediaList)
  | [], best, bestEntry =>
    some (match bestEntry with
          | some e => if MINIMUM_CONFIDENCE ≤ best then some e else none
          | none => none)
  | e :: rest, best, bestEntry =>
    match e.media.title.find_match q with
    | none => none
    | some c =>
      if c = 1 then some (some e)
      else if best < c then find_match_go q rest c (some e)
      else find_match_go q rest best bestEntry

/-- `MediaListGroup::find_match`: lower-case the query and run the entry
loop starting from best score 0 and no tracked entry. -/
def MediaListGroup.find_match (g : MediaListGroup) (title : List Char) :
    Option (Option MediaList) :=
  find_match_go (toLower title) g.entries 0 none

/-! ### `plex` — the webhook classifier -/

/-- `plex::MediaType`. -/
inductive MediaType where
  | Album | Artist | Clip | Collection | Episode | Movie | Person | Photo
  | PhotoAlbum | Playlist | PlaylistFolder | Season | Show | Track | Trailer
deriving DecidableEq

/-- `plex::WebhookMetadata`. -/
structure WebhookMetadata where
  media_type : MediaType
  title : List Char
  season_number : Int
  episode_number : Int
deriving DecidableEq

/-- `plex::WebhookAccount`. -/
structure WebhookAccount where
  name : List Char
deriving DecidableEq

/-- `plex::Webhook`; `metadata` is `none` when the payload had no (or an
incomplete) `Metadata` object. -/
structure Webhook where
  event : List Char
  account : WebhookAccount
  metadata : Option WebhookMetadata
deriving DecidableEq

/-- `plex::WebhookState`. -/
inductive WebhookState where
  | Actionable | NoMetadata | NonScrobbleEvent | IncorrectSeason | IncorrectType
deriving DecidableEq

/-- The event name `"media.scrobble"` compared against in the classifier. -/
def scrobbleEventName : List Char := ("media.scrobble").toList

/-- `Webhook::is_actionable`: the classifier, with its checks in source
order. -/
def Webhook.is_actionable (w : Webhook) (multi_season : Bool) : WebhookState :=
  if w.event ≠ scrobbleEventName then WebhookState.NonScrobbleEvent
  else
    match w.metadata with
    | none => WebhookState.NoMetadata
    | some metadata =>
      if metadata.media_type ≠ MediaType.Episode then WebhookState.IncorrectType
      else
        let allowed_season :=
          match multi_season with
          | true => decide (1 ≤ metadata.season_number)
          | false => decide (metadata.season_number = 1)
        if allowed_season = false then WebhookState.IncorrectSeason
        else WebhookState.Actionable

/-! ### `db` — override records -/

/-- `db::AnimeOverride` (the row shape read during scrobble resolution). -/
structure AnimeOverride where
  id : Int
  episode_offset : Option Int
deriving DecidableEq

/-- `AnimeOverride::get_episode_offset`: a stored NULL offset reads as 0. -/
def AnimeOverride.get_episode_offset (o : AnimeOverride) : Int :=
  o.episode_offset.getD 0

/-! ### `main::scrobble` — the request handler

The handler is modelled as a pure function of the parsed payload (`none` for
a malformed one), the multi-season flag, the optional Plex-username
restriction, whether an authenticated session (AniList client) is available,
and an environment fixing what the collaborators answer: the two override
lookups (`db::get_override_by_title`, `db::get_override_by_id`) and the
result of fetching the watch list.  The observable outcome is the returned
terminal string plus the progress-update request made to the remote client,
if any (the handler ignores the update call's result except for logging). -/

/-- `anilist::AnilistError`. -/
inductive AnilistError where
  | RequestDataError | ConnectionError | ParsingError | InvalidToken
deriving DecidableEq

/-- The collaborator responses seen by one run of the handler. -/
structure ScrobbleEnv where
  override_by_title : List Char → Option AnimeOverride
  override_by_id : Int → Option AnimeOverride
  watching_list : Except AnilistError MediaListGroup

/-- The observable outcome of one run of the handler. -/
structure ScrobbleOutcome where
  response : String
  update_call : Option (Int × Int)
deriving DecidableEq

/-- The Plex-username restriction check of the handler. -/
def user_matches (plex_user : Option (List Char)) (w : Webhook) : Bool :=
  match plex_user with
  | some u => decide (u = w.account.name)
  | none => true

/-- Identity resolution (main.rs lines 144–155): a title override keyed by
the raw incoming title resolves by id lookup; otherwise the fuzzy matcher
runs.  The outer `Option` models a scoring panic inside `find_match`. -/
def resolve_media_list (env : ScrobbleEnv) (entries : MediaListGroup)
    (title : List Char) : Option (Option MediaList) :=
  match env.override_by_title title with
  | some o => some (entries.find_id o.id)
  | none => entries.find_match title

/-- Episode-offset resolution (main.rs lines 158–164): the title override's
offset if one exists, else the id-keyed override's offset, else 0. -/
def effective_offset (env : ScrobbleEnv) (title : List Char)
    (matched_id : Int) : Int :=
  match env.override_by_title title with
  | some o => o.get_episode_offset
  | none =>
    match env.override_by_id matched_id with
    | some o => o.get_episode_offset
    | none => 0

/-- `main::scrobble`.  `none` models a panic inside the fuzzy matcher (the
trimming bug); every Rust `return` becomes a `some` outcome.  The
`metadata = none` branch under `Actionable` is unreachable (the classifier
returns `NoMetadata` first) and stands in for the handler's `unwrap`. -/
def scrobble (payload : Option Webhook) (multi_season : Bool)
    (plex_user : Option (List Char)) (has_session : Bool) (env : ScrobbleEnv) :
    Option ScrobbleOutcome :=
  match payload with
  | none => some ⟨"ERROR", none⟩
  | some webhook =>
    match webhook.is_actionable multi_season with
    | WebhookState.NoMetadata => some ⟨"ERROR", none⟩
    | WebhookState.NonScrobbleEvent => some ⟨"NO OP", none⟩
    | WebhookState.IncorrectType => some ⟨"NO OP", none⟩
    | WebhookState.IncorrectSeason => some ⟨"NO OP", none⟩
    | WebhookState.Actionable =>
      if user_matches plex_user webhook = false then some ⟨"NO OP", none⟩
      else if has_session = false then some ⟨"ERROR", none⟩
      else
        match env.watching_list with
        | Except.error _ => some ⟨"OK", none⟩
        | Except.ok media_list_entries =>
          match webhook.metadata with
          | none => some ⟨"OK", none⟩
          | some metadata =>
            match resolve_media_list env media_list_entries metadata.title with
            | none => none
            | some none => some ⟨"NO OP", none⟩
            | some (some matched_media_list) =>
              let episode_number := metadata.episode_number +
                effective_offset env metadata.title matched_media_list.id
              if episode_number = matched_media_list.progress + 1 then
                some ⟨"OK", some (matched_media_list.id, matched_media_list.progress + 1)⟩
              else
                some ⟨"OK", none⟩

/-! ### Specification-side definitions

These definitions follow the specification's words (not the source) and are
compared against the embedded code in the theorems below. -/

/-- An optional parenthesis character, for stating decoration shapes. -/
def optParen (b : Bool) (c : Char) : List Char := if b then [c] else []

/-- Declarative shape of the year decoration actually removed by the code:
a space, an optional `(`, a year 2020–2049, an optional `)`. -/
def YearDecoration (d : List Char) : Prop :=
  ∃ (p q : Bool) (d1 d2 : Char),
    (d1 = '2' ∨ d1 = '3' ∨ d1 = '4') ∧ d2.isDigit = true ∧
    d = ' ' :: (optParen p '(' ++ (['2', '0', d1, d2] ++ optParen q ')'))

/-- Declarative shape of a `word N` decoration (cour/season/part) actually
removed by the code: a space, an optional `(`, the word, a digit, an
optional `)`. -/
def WordDigitDecoration (word : List Char) (d : List Char) : Prop :=
  ∃ (p q : Bool) (n : Char), n.isDigit = true ∧
    d = ' ' :: (optParen p '(' ++ (word ++ ([n] ++ optParen q ')')))

/-- Declarative shape of the ordinal-season decoration actually removed by
the code: a space, one or more digits, st/nd/rd/th, then ` season`. -/
def OrdinalSeasonDecoration (d : List Char) : Prop :=
  ∃ (ds : List Char) (o1 o2 : Char),
    ds ≠ [] ∧ (∀ c ∈ ds, c.isDigit = true) ∧ ordinalPair o1 o2 = true ∧
    d = ' ' :: (ds ++ ([o1, o2] ++ (" season").toList))

/-- Declarative shape of the trailing bare-digit decoration. -/
def BareDigitDecoration (d : List Char) : Prop :=
  ∃ n : Char, n.isDigit = true ∧ d = [' ', n]

/-- A rule is a sound end-anchored decoration remover for shape `Shape`:
whenever it changes the string it removed exactly one `Shape` suffix. -/
def RuleSound (Shape : List Char → Prop)
    (rule : List Char → Option (List Char)) : Prop :=
  ∀ s : List Char, stripSuffix rule s = s ∨
    ∃ d, Shape d ∧ s = stripSuffix rule s ++ d

/-- Claim-side strict matcher for a parenthesized decoration: the
specification's literal reading ` (body)` with both parentheses mandatory. -/
def strictParenRuleRev (core : List Char → Option (List Char))
    (rev : List Char) : Option (List Char) :=
  match rev with
  | ')' :: r1 =>
    match core r1 with
    | some ('(' :: ' ' :: rest) => some rest
    | _ => none
  | _ => none

/-- Collect a reversed digit run (giving the digits in reading order), then
require the leading space. -/
def collectDigitsRev (acc : List Char) : List Char → Option (List Char × List Char)
  | c :: rest =>
      if c = ' ' then (if acc = [] then none else some (acc, rest))
      else if c.isDigit then collectDigitsRev (c :: acc) rest
      else none
  | [] => none

/-- Numeric value of a digit string in reading order. -/
def digitsVal (ds : List Char) : Nat :=
  ds.foldl (fun a c => 10 * a + (c.toNat - 48)) 0

/-- Claim-side strict ordinal-season rule: the ordinal number must lie in
1–90 as the specification's words state. -/
def claimOrdinalSeasonRule (rev : List Char) : Option (List Char) :=
  match rev with
  | 'n' :: 'o' :: 's' :: 'a' :: 'e' :: 's' :: ' ' :: o2 :: o1 :: rest =>
    if ordinalPair o1 o2 then
      match collectDigitsRev [] rest with
      | some (ds, rest') =>
          if 1 ≤ digitsVal ds ∧ digitsVal ds ≤ 90 then some rest' else none
      | none => none
    else none
  | _ => none

/-- Claim-side strict rule list: the six rules exactly as the claim words
them — parenthesized year/cour/season/part, ordinal 1–90, bare digit. -/
def claim_massaging_rules : List (List Char → Option (List Char)) :=
  [strictParenRuleRev yearCore,
   claimOrdinalSeasonRule,
   strictParenRuleRev (wordDigitCore (("cour ").toList.reverse)),
   strictParenRuleRev (wordDigitCore (("season ").toList.reverse)),
   strictParenRuleRev (wordDigitCore (("part ").toList.reverse)),
   bareDigitRule]

/-- The claim's literal reading of the massaging pipeline. -/
def claimMassageStrict (s : List Char) : List Char :=
  remove_regexes claim_massaging_rules s

/-- Spec-side direct-pass score ("the maximum normalized Levenshtein
similarity over variants", 0 with no variants). -/
def directBestSpec (t : MediaTitle) (q : List Char) : ℚ :=
  ((t.variants).map (fun v => normalized_levenshtein q v)).foldl max 0

/-- Spec-side fallback-pass scores: massage and trim the query and each
variant, apply the 0.05 penalty floored at 0; `none` when any trimming
fails to return. -/
def fallbackScoresSpec (t : MediaTitle) (q : List Char) : Option (List ℚ) :=
  (massagedForm q).bind fun mq =>
    (t.variants).mapM fun v =>
      (massagedForm v).map fun mv => max (normalized_levenshtein mq mv - 1/20) 0

/-! ## Theorems -/

/-- **C2.** The classifier matches the documented rule table: non-scrobble
events are rejected first, then missing metadata, then non-episode media,
then the season gate (`= 1` single-season, `≥ 1` multi-season), and season 0
is never actionable in either mode. -/
theorem is_actionable_matches_rule_table (w : Webhook) (ms : Bool) :
    (w.is_actionable ms = WebhookState.NonScrobbleEvent ↔
      w.event ≠ scrobbleEventName)
    ∧ (w.is_actionable ms = WebhookState.NoMetadata ↔
      w.event = scrobbleEventName ∧ w.metadata = none)
    ∧ (w.is_actionable ms = WebhookState.IncorrectType ↔
      w.event = scrobbleEventName ∧
        ∃ m, w.metadata = some m ∧ m.media_type ≠ MediaType.Episode)
    ∧ (w.is_actionable ms = WebhookState.IncorrectSeason ↔
      w.event = scrobbleEventName ∧
        ∃ m, w.metadata = some m ∧ m.media_type = MediaType.Episode ∧
          ¬(if ms = true then 1 ≤ m.season_number else m.season_number = 1))
    ∧ (w.is_actionable ms = WebhookState.Actionable ↔
      w.event = scrobbleEventName ∧
        ∃ m, w.metadata = some m ∧ m.media_type = MediaType.Episode ∧
          (if ms = true then 1 ≤ m.season_number else m.season_number = 1))
    ∧ (∀ m, w.metadata = some m → m.season_number = 0 →
        w.is_actionable ms ≠ WebhookState.Actionable) := by
  obtain ⟨ev, acc, md⟩ := w
  by_cases hev : ev = scrobbleEventName
  · subst hev
    cases md with
    | none => refine ⟨?_, ?_, ?_, ?_, ?_, ?_⟩ <;> simp [Webhook.is_actionable]
    | some m =>
      by_cases ht : m.media_type = MediaType.Episode
      · cases ms with
        | false =>
          by_cases hs : m.season_number = 1 <;>
            refine ⟨?_, ?_, ?_, ?_, ?_, ?_⟩ <;>
              simp [Webhook.is_actionable, ht, hs] <;> try omega
        | true =>
          by_cases hs : 1 ≤ m.season_number <;>
            refine ⟨?_, ?_, ?_, ?_, ?_, ?_⟩ <;>
              simp [Webhook.is_actionable, ht, hs] <;> try omega
      · refine ⟨?_, ?_, ?_, ?_, ?_, ?_⟩ <;> simp [Webhook.is_actionable, ht]
  · refine ⟨?_, ?_, ?_, ?_, ?_, ?_⟩ <;> simp [Webhook.is_actionable, hev]

/-- Witness for C2: a season-0 scrobble event is not actionable even in
multi-season mode. -/
theorem is_actionable_matches_rule_table_witness :
    (Webhook.mk (("media.scrobble").toList) ⟨[]⟩
        (some ⟨MediaType.Episode, [], 0, 3⟩)).is_actionable true ≠
      WebhookState.Actionable :=
  (is_actionable_matches_rule_table _ true).2.2.2.2.2 _ rfl rfl

/-- **C10.** When fetching the watch list fails with any error, an
Actionable event that passed the username filter with a session available
still returns "OK" and makes no progress-update call. -/
theorem scrobble_fetch_failure_returns_ok
    (w : Webhook) (ms : Bool) (pu : Option (List Char)) (env : ScrobbleEnv)
    (err : AnilistError)
    (hact : w.is_actionable ms = WebhookState.Actionable)
    (huser : user_matches pu w = true)
    (hfetch : env.watching_list = Except.error err) :
    scrobble (some w) ms pu true env = some ⟨"OK", none⟩ := by
  simp [scrobble, hact, huser, hfetch]

/-- Witness for C10. -/
theorem scrobble_fetch_failure_returns_ok_witness :
    scrobble
      (some ⟨("media.scrobble").toList, ⟨[]⟩, some ⟨MediaType.Episode, [], 1, 2⟩⟩)
      false none true
      ⟨fun _ => none, fun _ => none, Except.error AnilistError.ConnectionError⟩ =
      some ⟨"OK", none⟩ :=
  scrobble_fetch_failure_returns_ok _ _ _ _ AnilistError.ConnectionError
    (by decide) (by decide) rfl

/-- **C5.** A title override keyed by the exact raw incoming title resolves
identity by direct id lookup — the conclusion does not depend on the fuzzy
matcher in any way, so it holds even when some other entry would score
higher — and the override's own offset is used. -/
theorem scrobble_title_override_bypasses_fuzzy_matcher
    (w : Webhook) (ms : Bool) (pu : Option (List Char)) (env : ScrobbleEnv)
    (entries : MediaListGroup) (m : WebhookMetadata) (o : AnimeOverride)
    (e : MediaList)
    (hact : w.is_actionable ms = WebhookState.Actionable)
    (huser : user_matches pu w = true)
    (hfetch : env.watching_list = Except.ok entries)
    (hmd : w.metadata = some m)
    (hov : env.override_by_title m.title = some o)
    (hfind : entries.find_id o.id = some e) :
    scrobble (some w) ms pu true env =
      some ⟨"OK",
        if m.episode_number + o.get_episode_offset = e.progress + 1 then
          some (e.id, e.progress + 1)
        else none⟩ := by
  simp only [scrobble, hact, huser, hfetch, hmd, resolve_media_list, hov, hfind,
    Bool.true_eq_false, if_false, if_neg, ite_false]
  simp [effective_offset, hov]
  split <;> rfl

/-- Witness for C5: the override resolves to entry 7 even though the watch
list contains an exact-title entry with a different id. -/
theorem scrobble_title_override_bypasses_fuzzy_matcher_witness :
    scrobble
      (some ⟨("media.scrobble").toList, ⟨[]⟩,
        some ⟨MediaType.Episode, ("ab").toList, 1, 4⟩⟩)
      false none true
      ⟨fun t => if t = ("ab").toList then some ⟨7, some 2⟩ else none,
       fun _ => none,
       Except.ok ⟨[⟨9, 3, ⟨9, ⟨some (("ab").toList), none, none, ("ab").toList⟩⟩⟩,
                   ⟨7, 5, ⟨7, ⟨some (("zz").toList), none, none, ("zz").toList⟩⟩⟩]⟩⟩ =
      some ⟨"OK", some (7, 6)⟩ := by
  have h := scrobble_title_override_bypasses_fuzzy_matcher
    ⟨("media.scrobble").toList, ⟨[]⟩,
      some ⟨MediaType.Episode, ("ab").toList, 1, 4⟩⟩
    false none
    ⟨fun t => if t = ("ab").toList then some ⟨7, some 2⟩ else none,
      fun _ => none,
      Except.ok ⟨[⟨9, 3, ⟨9, ⟨some (("ab").toList), none, none, ("ab").toList⟩⟩⟩,
                  ⟨7, 5, ⟨7, ⟨some (("zz").toList), none, none, ("zz").toList⟩⟩⟩]⟩⟩
    ⟨[⟨9, 3, ⟨9, ⟨some (("ab").toList), none, none, ("ab").toList⟩⟩⟩,
      ⟨7, 5, ⟨7, ⟨some (("zz").toList), none, none, ("zz").toList⟩⟩⟩]⟩
    ⟨MediaType.Episode, ("ab").toList, 1, 4⟩
    ⟨7, some 2⟩
    ⟨7, 5, ⟨7, ⟨some (("zz").toList), none, none, ("zz").toList⟩⟩⟩
    (by decide) (by decide) rfl rfl (by decide) (by decide)
  simpa using h

/-- **C1.** For an Actionable event resolved to a watch-list entry, a
progress update is requested if and only if the event's episode number plus
the effective episode offset equals the entry's progress plus one; otherwise
no remote call is made and the response is still "OK".  A stored NULL
offset reads as offset 0. -/
theorem scrobble_updates_iff_adjacent_episode
    (w : Webhook) (ms : Bool) (pu : Option (List Char)) (env : ScrobbleEnv)
    (entries : MediaListGroup) (m : WebhookMetadata) (e : MediaList)
    (hact : w.is_actionable ms = WebhookState.Actionable)
    (huser : user_matches pu w = true)
    (hfetch : env.watching_list = Except.ok entries)
    (hmd : w.metadata = some m)
    (hres : resolve_media_list env entries m.title = some (some e)) :
    scrobble (some w) ms pu true env =
      some ⟨"OK",
        if m.episode_number + effective_offset env m.title e.id = e.progress + 1
        then some (e.id, e.progress + 1)
        else none⟩
    ∧ (∀ o : AnimeOverride, o.episode_offset = none → o.get_episode_offset = 0) := by
  constructor
  · simp [scrobble, hact, huser, hfetch, hmd, hres]
    split <;> rfl
  · intro o ho
    simp [AnimeOverride.get_episode_offset, ho]

/-- Witness for C1: with progress 5, episode 4 and offset 2 the update to
progress 6 is requested; the same event with the entry's progress at 6 makes
no call. -/
theorem scrobble_updates_iff_adjacent_episode_witness :
    scrobble
      (some ⟨("media.scrobble").toList, ⟨[]⟩,
        some ⟨MediaType.Episode, ("ab").toList, 1, 4⟩⟩)
      false none true
      ⟨fun t => if t = ("ab").toList then some ⟨7, some 2⟩ else none,
       fun _ => none,
       Except.ok ⟨[⟨7, 5, ⟨7, ⟨some (("zz").toList), none, none, ("zz").toList⟩⟩⟩]⟩⟩ =
      some ⟨"OK", some (7, 6)⟩ := by
  have h := (scrobble_updates_iff_adjacent_episode
    ⟨("media.scrobble").toList, ⟨[]⟩,
      some ⟨MediaType.Episode, ("ab").toList, 1, 4⟩⟩
    false none
    ⟨fun t => if t = ("ab").toList then some ⟨7, some 2⟩ else none,
      fun _ => none,
      Except.ok ⟨[⟨7, 5, ⟨7, ⟨some (("zz").toList), none, none, ("zz").toList⟩⟩⟩]⟩⟩
    ⟨[⟨7, 5, ⟨7, ⟨some (("zz").toList), none, none, ("zz").toList⟩⟩⟩]⟩
    ⟨MediaType.Episode, ("ab").toList, 1, 4⟩
    ⟨7, 5, ⟨7, ⟨some (("zz").toList), none, none, ("zz").toList⟩⟩⟩
    (by decide) (by decide) rfl rfl (by decide)).1
  simpa using h

/-- **C6 counterexample.** A well-formed scrobble payload whose metadata is
missing is classified `NoMetadata`, and the handler returns "ERROR" even
though the payload parsed and a session is available — refuting "ERROR
exactly when the payload is malformed or no authenticated session is
available". -/
theorem scrobble_error_claim_counterexample :
    ¬ (∀ (payload : Option Webhook) (ms : Bool) (pu : Option (List Char))
        (session : Bool) (env : ScrobbleEnv) (out : ScrobbleOutcome),
        scrobble payload ms pu session env = some out →
        (out.response = "ERROR" ↔ payload = none ∨ session = false)) := by
  intro h
  have hc := h (some ⟨scrobbleEventName, ⟨[]⟩, none⟩) false none true
    ⟨fun _ => none, fun _ => none, Except.ok ⟨[]⟩⟩ ⟨"ERROR", none⟩ rfl
  simp at hc

/-- **C6 amended.** Complete characterization of the handler's terminal
strings: "ERROR" for a malformed payload, a `NoMetadata` classification, or
a missing session on an Actionable event that passed the username filter;
"NO OP" for the other classifier rejections, a username-filter mismatch, or
a failed identity match; "OK" for the remaining paths (including skipped
updates and failed watch-list fetches). -/
theorem scrobble_terminal_strings
    (payload : Option Webhook) (ms : Bool) (pu : Option (List Char))
    (session : Bool) (env : ScrobbleEnv) (out : ScrobbleOutcome)
    (h : scrobble payload ms pu session env = some out) :
    (out.response = "ERROR" ↔
      payload = none ∨
      ∃ w, payload = some w ∧
        (w.is_actionable ms = WebhookState.NoMetadata ∨
         (w.is_actionable ms = WebhookState.Actionable ∧
          user_matches pu w = true ∧ session = false)))
    ∧ (out.response = "NO OP" ↔
      ∃ w, payload = some w ∧
        (w.is_actionable ms = WebhookState.NonScrobbleEvent ∨
         w.is_actionable ms = WebhookState.IncorrectType ∨
         w.is_actionable ms = WebhookState.IncorrectSeason ∨
         (w.is_actionable ms = WebhookState.Actionable ∧
          user_matches pu w = false) ∨
         (w.is_actionable ms = WebhookState.Actionable ∧
          user_matches pu w = true ∧ session = true ∧
          ∃ entries m, env.watching_list = Except.ok entries ∧
            w.metadata = some m ∧
            resolve_media_list env entries m.title = some none)))
    ∧ (out.response = "OK" ↔
      ∃ w, payload = some w ∧
        w.is_actionable ms = WebhookState.Actionable ∧
        user_matches pu w = true ∧ session = true ∧
        ((∃ err, env.watching_list = Except.error err) ∨
         (∃ entries, env.watching_list = Except.ok entries ∧
           (w.metadata = none ∨
            ∃ m e, w.metadata = some m ∧
              resolve_media_list env entries m.title = some (some e))))) := by
  cases payload with
  | none =>
    have hout : out = ⟨"ERROR", none⟩ := by simpa [scrobble] using h.symm
    subst hout
    refine ⟨?_, ?_, ?_⟩ <;> simp
  | some w =>
    cases hact : w.is_actionable ms with
    | NoMetadata =>
      have hout : out = ⟨"ERROR", none⟩ := by
        simpa [scrobble, hact] using h.symm
      subst hout
      refine ⟨?_, ?_, ?_⟩ <;> simp [hact]
    | NonScrobbleEvent =>
      have hout : out = ⟨"NO OP", none⟩ := by
        simpa [scrobble, hact] using h.symm
      subst hout
      refine ⟨?_, ?_, ?_⟩ <;> simp [hact]
    | IncorrectType =>
      have hout : out = ⟨"NO OP", none⟩ := by
        simpa [scrobble, hact] using h.symm
      subst hout
      refine ⟨?_, ?_, ?_⟩ <;> simp [hact]
    | IncorrectSeason =>
      have hout : out = ⟨"NO OP", none⟩ := by
        simpa [scrobble, hact] using h.symm
      subst hout
      refine ⟨?_, ?_, ?_⟩ <;> simp [hact]
    | Actionable =>
      cases hu : user_matches pu w with
      | false =>
        have hout : out = ⟨"NO OP", none⟩ := by
          simpa [scrobble, hact, hu] using h.symm
        subst hout
        refine ⟨?_, ?_, ?_⟩ <;> simp [hact, hu]
      | true =>
        cases session with
        | false =>
          have hout : out = ⟨"ERROR", none⟩ := by
            simpa [scrobble, hact, hu] using h.symm
          subst hout
          refine ⟨?_, ?_, ?_⟩ <;> simp [hact, hu]
        | true =>
          cases hwl : env.watching_list with
          | error err =>
            have hout : out = ⟨"OK", none⟩ := by
              simpa [scrobble, hact, hu, hwl] using h.symm
            subst hout
            refine ⟨?_, ?_, ?_⟩ <;> simp [hact, hu, hwl]
          | ok entries =>
            cases hmd : w.metadata with
            | none =>
              have hout : out = ⟨"OK", none⟩ := by
                simpa [scrobble, hact, hu, hwl, hmd] using h.symm
              subst hout
              refine ⟨?_, ?_, ?_⟩ <;> simp [hact, hu, hwl, hmd]
            | some m =>
              cases hres : resolve_media_list env entries m.title with
              | none =>
                rw [scrobble] at h
                simp [hact, hu, hwl, hmd, hres] at h
              | some r =>
                cases r with
                | none =>
                  have hout : out = ⟨"NO OP", none⟩ := by
                    simpa [scrobble, hact, hu, hwl, hmd, hres] using h.symm
                  subst hout
                  refine ⟨?_, ?_, ?_⟩ <;> simp [hact, hu, hwl, hmd, hres]
                | some e =>
                  by_cases hadj : m.episode_number +
                      effective_offset env m.title e.id = e.progress + 1
                  · have hout : out =
                        ⟨"OK", some (e.id, e.progress + 1)⟩ := by
                      simpa [scrobble, hact, hu, hwl, hmd, hres, hadj]
                        using h.symm
                    subst hout
                    refine ⟨?_, ?_, ?_⟩ <;> simp [hact, hu, hwl, hmd, hres]
                  · have hout : out = ⟨"OK", none⟩ := by
                      simpa [scrobble, hact, hu, hwl, hmd, hres, hadj]
                        using h.symm
                    subst hout
                    refine ⟨?_, ?_, ?_⟩ <;> simp [hact, hu, hwl, hmd, hres]

/-- Witness for the amended C6 at a concrete rejected event: a non-scrobble
payload yields "NO OP". -/
theorem scrobble_terminal_strings_witness :
    ((⟨"NO OP", none⟩ : ScrobbleOutcome).response = "NO OP" ↔
      ∃ w, (some ⟨("media.play").toList, ⟨[]⟩, none⟩ : Option Webhook) = some w ∧
        (w.is_actionable false = WebhookState.NonScrobbleEvent ∨
         w.is_actionable false = WebhookState.IncorrectType ∨
         w.is_actionable false = WebhookState.IncorrectSeason ∨
         (w.is_actionable false = WebhookState.Actionable ∧
          user_matches none w = false) ∨
         (w.is_actionable false = WebhookState.Actionable ∧
          user_matches none w = true ∧ true = true ∧
          ∃ entries m,
            (⟨fun _ => none, fun _ => none,
              Except.ok ⟨[]⟩⟩ : ScrobbleEnv).watching_list = Except.ok entries ∧
            w.metadata = some m ∧
            resolve_media_list ⟨fun _ => none, fun _ => none, Except.ok ⟨[]⟩⟩
              entries m.title = some none))) :=
  (scrobble_terminal_strings (some ⟨("media.play").toList, ⟨[]⟩, none⟩) false
    none true ⟨fun _ => none, fun _ => none, Except.ok ⟨[]⟩⟩ ⟨"NO OP", none⟩
    rfl).2.1

/-- One-step unfolding of the forward scan. -/
theorem loopPos_cons (p : Char → Bool) (c : Char) (rest : List Char)
    (i last : Nat) :
    loopPos p (c :: rest) i last = if p c then i else loopPos p rest (i + 1) i :=
  rfl

/-- One-step unfolding of the backward scan. -/
theorem loopPosRev_cons (p : Char → Bool) (c : Char) (rest : List Char)
    (i last : Nat) :
    loopPosRev p (c :: rest) i last =
      if p c then i else loopPosRev p rest (i - 1) i :=
  rfl

/-- The forward scan stops at the first satisfying character: on
`A ++ a :: B` with nothing in `A` satisfying `p` and `p a`, it returns the
index of `a`. -/
theorem loopPos_first_true (p : Char → Bool) :
    ∀ (A : List Char) (a : Char) (B : List Char) (base last : Nat),
      (∀ x ∈ A, p x = false) → p a = true →
      loopPos p (A ++ a :: B) base last = base + A.length := by
  intro A
  induction A with
  | nil => intro a B base last hA ha; simp [loopPos_cons, ha]
  | cons x A ih =>
    intro a B base last hA ha
    have hx : p x = false := hA x (by simp)
    have hc : (x :: A) ++ a :: B = x :: (A ++ a :: B) := rfl
    rw [hc, loopPos_cons]
    simp only [hx, Bool.false_eq_true, if_false]
    rw [ih a B (base + 1) base (fun y hy => hA y (by simp [hy])) ha]
    simp [List.length_cons]
    omega

/-- On a nonempty list with no satisfying character, the forward scan ends
at the last index. -/
theorem loopPos_all_false (p : Char → Bool) :
    ∀ (l : List Char) (base last : Nat), l ≠ [] → (∀ x ∈ l, p x = false) →
      loopPos p l base last = base + l.length - 1 := by
  intro l
  induction l with
  | nil => intro base last h _; exact absurd rfl h
  | cons x rest ih =>
    intro base last _ hall
    have hx : p x = false := hall x (by simp)
    cases rest with
    | nil => simp [loopPos_cons, loopPos, hx]
    | cons y t =>
      rw [loopPos_cons]
      simp only [hx, Bool.false_eq_true, if_false]
      rw [ih (base + 1) base (by simp) (fun z hz => hall z (by simp [hz]))]
      simp [List.length_cons]
      omega

/-- The backward scan stops at the first satisfying character of the
reversed list, with indices running downwards. -/
theorem loopPosRev_first_true (p : Char → Bool) :
    ∀ (A : List Char) (a : Char) (B : List Char) (base last : Nat),
      (∀ x ∈ A, p x = false) → p a = true →
      loopPosRev p (A ++ a :: B) base last = base - A.length := by
  intro A
  induction A with
  | nil => intro a B base last hA ha; simp [loopPosRev_cons, ha]
  | cons x A ih =>
    intro a B base last hA ha
    have hx : p x = false := hA x (by simp)
    have hc : (x :: A) ++ a :: B = x :: (A ++ a :: B) := rfl
    rw [hc, loopPosRev_cons]
    simp only [hx, Bool.false_eq_true, if_false]
    rw [ih a B (base - 1) base (fun y hy => hA y (by simp [hy])) ha]
    simp [List.length_cons]
    omega

/-- On a nonempty list with no satisfying character, the backward scan ends
`length - 1` below its starting index. -/
theorem loopPosRev_all_false (p : Char → Bool) :
    ∀ (l : List Char) (base last : Nat), l ≠ [] → (∀ x ∈ l, p x = false) →
      loopPosRev p l base last = base - (l.length - 1) := by
  intro l
  induction l with
  | nil => intro base last h _; exact absurd rfl h
  | cons x rest ih =>
    intro base last _ hall
    have hx : p x = false := hall x (by simp)
    cases rest with
    | nil => simp [loopPosRev_cons, loopPosRev, hx]
    | cons y t =>
      rw [loopPosRev_cons]
      simp only [hx, Bool.false_eq_true, if_false]
      rw [ih (base - 1) base (by simp) (fun z hz => hall z (by simp [hz]))]
      simp [List.length_cons]
      omega

/-- Every list either has no character satisfying `p`, or splits at the
first one. -/
theorem exists_first_true_split (p : Char → Bool) (cs : List Char) :
    (∀ x ∈ cs, p x = false) ∨
    ∃ A a B, cs = A ++ a :: B ∧ (∀ x ∈ A, p x = false) ∧ p a = true := by
  induction cs with
  | nil => exact Or.inl (by simp)
  | cons c rest ih =>
    cases hpc : p c with
    | true => exact Or.inr ⟨[], c, rest, by simp, by simp, hpc⟩
    | false =>
      rcases ih with hall | ⟨A, a, B, hsplit, hA, ha⟩
      · refine Or.inl ?_
        intro x hx
        rcases List.mem_cons.mp hx with rfl | hx
        · exact hpc
        · exact hall x hx
      · refine Or.inr ⟨c :: A, a, B, by simp [hsplit], ?_, ha⟩
        intro x hx
        rcases List.mem_cons.mp hx with rfl | hx
        · exact hpc
        · exact hA x hx

/-- `start_pos` when the input splits at the first kept leading
character. -/
theorem startPos_split (A B : List Char) (a : Char)
    (hA : ∀ x ∈ A, leadingKeep x = false) (ha : leadingKeep a = true) :
    startPos (A ++ a :: B) = A.length := by
  simpa [startPos] using loopPos_first_true leadingKeep A a B 0 0 hA ha

/-- `end_pos` when the input splits at the last kept trailing character. -/
theorem endPos_split (C D : List Char) (b : Char)
    (hD : ∀ x ∈ D, trailingKeep x = false) (hb : trailingKeep b = true) :
    endPos (C ++ b :: D) = C.length := by
  have hrev : (C ++ b :: D).reverse = D.reverse ++ b :: C.reverse := by
    simp
  rw [endPos, hrev]
  rw [loopPosRev_first_true trailingKeep D.reverse b C.reverse _ 0
    (fun x hx => hD x (List.mem_reverse.mp hx)) hb]
  simp [List.length_append, List.length_cons]

/-- A single character always trims to itself (whether or not it is kept,
both scans stop at index 0). -/
theorem rssc_singleton (c : Char) :
    remove_special_surrounding_characters [c] = some [c] := by
  cases h1 : leadingKeep c <;> cases h2 : trailingKeep c <;>
    simp [remove_special_surrounding_characters, startPos, endPos, loopPos,
      loopPosRev, h1, h2]

/-- **C8 (code bug).** The trimming function is not total: on `"!!!"` the
forward scan ends at index 2 and the backward scan at index 0, so the Rust
slice `&value[2..=0]` panics; on the empty string the char-boundary `while`
loop never terminates.  When the function does return, the result is a
contiguous infix of the input. -/
theorem remove_special_surrounding_characters_partiality :
    remove_special_surrounding_characters (("!!!").toList) = none
    ∧ remove_special_surrounding_characters ([] : List Char) = none
    ∧ ∀ (cs r : List Char),
        remove_special_surrounding_characters cs = some r → r <:+: cs := by
  refine ⟨by decide, by decide, ?_⟩
  intro cs r h
  by_cases hcs : cs = []
  · rw [remove_special_surrounding_characters, if_pos hcs] at h
    exact absurd h (by simp)
  · rw [remove_special_surrounding_characters, if_neg hcs] at h
    by_cases hle : startPos cs ≤ endPos cs + 1
    · rw [if_pos hle, Option.some.injEq] at h
      subst h
      exact ((List.take_prefix _ _).isInfix).trans
        ((List.drop_suffix _ _).isInfix)
    · rw [if_neg hle] at h
      exact absurd h (by simp)

/-- Witness for C8: the infix property at a concrete returning input. -/
theorem remove_special_surrounding_characters_partiality_witness :
    (("ab").toList) <:+: (("[ab]").toList) :=
  remove_special_surrounding_characters_partiality.2.2
    (("[ab]").toList) (("ab").toList) (by decide)

/-- **C9 (code bug).** Trimming is not idempotent on the code as written:
`"!!"` trims to the empty string, and re-trimming the empty string never
terminates.  On every nonempty returned result the function is idempotent. -/
theorem remove_special_surrounding_characters_idempotence :
    remove_special_surrounding_characters (("!!").toList) = some []
    ∧ remove_special_surrounding_characters ([] : List Char) = none
    ∧ ∀ (cs r : List Char),
        remove_special_surrounding_characters cs = some r → r ≠ [] →
        remove_special_surrounding_characters r = some r := by
  refine ⟨by decide, by decide, ?_⟩
  intro cs r h hne
  by_cases hcs : cs = []
  · rw [remove_special_surrounding_characters, if_pos hcs] at h
    exact absurd h (by simp)
  rw [remove_special_surrounding_characters, if_neg hcs] at h
  by_cases hle : startPos cs ≤ endPos cs + 1
  swap
  · rw [if_neg hle] at h
    exact absurd h (by simp)
  rw [if_pos hle, Option.some.injEq] at h
  have hlenr : r.length = min (endPos cs + 1 - startPos cs)
      (cs.length - startPos cs) := by
    rw [← h]
    simp [List.length_take, List.length_drop]
  rcases Nat.lt_or_ge r.length 2 with hsmall | hbig
  · -- a returned result of length one is a fixed point outright
    obtain ⟨c, hc⟩ : ∃ c, r = [c] := by
      cases r with
      | nil => exact absurd rfl hne
      | cons c t =>
        cases t with
        | nil => exact ⟨c, rfl⟩
        | cons d t2 => exact absurd hsmall (by simp)
    rw [hc]
    exact rssc_singleton c
  · -- length at least two: both scans found a kept character
    have hcslen : 1 ≤ cs.length := by
      cases cs with
      | nil => exact absurd rfl hcs
      | cons c t => simp
    rcases exists_first_true_split leadingKeep cs with hallL | ⟨A, a, B, hsplitL, hA, ha⟩
    · -- no kept leading character: start_pos is the last index, result too short
      have hsv : startPos cs = cs.length - 1 := by
        rw [startPos, loopPos_all_false leadingKeep cs 0 0 hcs hallL]
        omega
      omega
    rcases exists_first_true_split trailingKeep cs.reverse with hallR | ⟨A2, b, B2, hsplitR, hA2, hb⟩
    · -- no kept trailing character: end_pos is 0, result too short
      have hev : endPos cs = 0 := by
        rw [endPos, loopPosRev_all_false trailingKeep cs.reverse _ 0
          (by simpa using hcs) hallR]
        simp
      omega
    -- the two decompositions of cs
    have hsv : startPos cs = A.length := by
      rw [hsplitL]; exact startPos_split A B a hA ha
    have hcs2 : cs = B2.reverse ++ b :: A2.reverse := by
      have hr := congrArg List.reverse hsplitR
      simpa [List.reverse_append, List.append_assoc] using hr
    have hev : endPos cs = B2.reverse.length := by
      rw [hcs2]
      exact endPos_split B2.reverse A2.reverse b
        (fun x hx => hA2 x (List.mem_reverse.mp hx)) hb
    -- arithmetic: start index strictly before end index
    have hse : startPos cs < endPos cs := by omega
    have hsC : startPos cs ≤ B2.reverse.length := by omega
    -- r starts with the kept character a
    have hdropL : cs.drop (startPos cs) = a :: B := by
      rw [hsv, hsplitL]
      exact List.drop_left A (a :: B)
    obtain ⟨k, hk⟩ : ∃ k, endPos cs + 1 - startPos cs = k + 1 := ⟨endPos cs - startPos cs, by omega⟩
    have hra : r = a :: B.take k := by
      rw [← h, hdropL, hk]
      rfl
    -- r ends with the kept character b
    have hdropR : cs.drop (startPos cs) =
        B2.reverse.drop (startPos cs) ++ b :: A2.reverse := by
      obtain ⟨sp, hsp⟩ : ∃ sp, startPos cs = sp := ⟨_, rfl⟩
      rw [hsp, hcs2, List.drop_append_eq_append_drop]
      have hz : sp - B2.reverse.length = 0 := by omega
      rw [hz]
      simp
    have hrb : r = B2.reverse.drop (startPos cs) ++ [b] := by
      rw [← h, hdropR, List.take_append_eq_append_take]
      have hlen1 : (B2.reverse.drop (startPos cs)).length =
          B2.reverse.length - startPos cs := by simp
      have hfull : (B2.reverse.drop (startPos cs)).take
          (endPos cs + 1 - startPos cs) = B2.reverse.drop (startPos cs) := by
        apply List.take_of_length_le
        omega
      rw [hfull]
      have hone : endPos cs + 1 - startPos cs -
          (B2.reverse.drop (startPos cs)).length = 1 := by
        simp only [hlen1]
        omega
      rw [hone]
      rfl
    -- re-trimming r
    have hrne : r ≠ [] := hne
    have hstart : startPos r = 0 := by
      rw [hra]
      exact startPos_split [] (B.take k) a (by simp) ha
    have hend : endPos r = r.length - 1 := by
      conv_lhs => rw [hrb]
      rw [endPos_split (B2.reverse.drop (startPos cs)) [] b (by simp) hb]
      rw [hrb]
      simp
    rw [remove_special_surrounding_characters, if_neg hrne, hstart, hend]
    have hrlen : 1 ≤ r.length := by
      rw [hra]; simp
    rw [if_pos (by omega)]
    have : r.length - 1 + 1 - 0 = r.length := by omega
    rw [this]
    simp

/-- Witness for C9: idempotence at a concrete input whose trim is
nonempty. -/
theorem remove_special_surrounding_characters_idempotence_witness :
    remove_special_surrounding_characters (("ab").toList) =
      some (("ab").toList) :=
  remove_special_surrounding_characters_idempotence.2.2
    (("[ab]").toList) (("ab").toList) (by decide) (by decide)

/-- One-step unfolding of the entry loop on a cons cell. -/
theorem find_match_go_cons (q : List Char) (e : MediaList)
    (rest : List MediaList) (best : ℚ) (bestEntry : Option MediaList) :
    find_match_go q (e :: rest) best bestEntry =
      match e.media.title.find_match q with
      | none => none
      | some c =>
        if c = 1 then some (some e)
        else if best < c then find_match_go q rest c (some e)
        else find_match_go q rest best bestEntry :=
  rfl

/-- Unfolding of the entry loop on the empty list. -/
theorem find_match_go_nil (q : List Char) (best : ℚ)
    (bestEntry : Option MediaList) :
    find_match_go q [] best bestEntry =
      some (match bestEntry with
            | some e => if MINIMUM_CONFIDENCE ≤ best then some e else none
            | none => none) :=
  rfl

/-- Once the accumulator has reached the eventual best score (at or above
the threshold) and every remaining score is at most that, the tracked entry
never changes: the first entry attaining the maximum wins ties. -/
theorem find_match_go_stay (q : List Char) :
    ∀ (l : List MediaList) (b : ℚ) (e0 : MediaList),
      MINIMUM_CONFIDENCE ≤ b →
      (∀ x ∈ l, ∃ c, x.media.title.find_match q = some c ∧ c ≠ 1 ∧ c ≤ b) →
      find_match_go q l b (some e0) = some (some e0) := by
  intro l
  induction l with
  | nil => intro b e0 hb _; simp [find_match_go_nil, hb]
  | cons y rest ih =>
    intro b e0 hb hall
    obtain ⟨c, hc, hne1, hle⟩ := hall y (by simp)
    simp only [find_match_go_cons, hc]
    rw [if_neg hne1, if_neg (not_lt.mpr hle)]
    exact ih b e0 hb (fun x hx => hall x (by simp [hx]))

/-- The entry loop returns the first entry scoring exactly 1 immediately,
whatever comes after it. -/
theorem find_match_go_first_exact (q : List Char) :
    ∀ (pre : List MediaList) (e : MediaList) (post : List MediaList) (b : ℚ)
      (be : Option MediaList),
      (∀ x ∈ pre, ∃ c, x.media.title.find_match q = some c ∧ c ≠ 1) →
      e.media.title.find_match q = some 1 →
      find_match_go q (pre ++ e :: post) b be = some (some e) := by
  intro pre
  induction pre with
  | nil =>
    intro e post b be _ he
    simp [find_match_go_cons, he]
  | cons x pre ih =>
    intro e post b be hall he
    obtain ⟨c, hc, hne1⟩ := hall x (by simp)
    have hstep : (x :: pre) ++ e :: post = x :: (pre ++ e :: post) := rfl
    rw [hstep]
    simp only [find_match_go_cons, hc]
    rw [if_neg hne1]
    by_cases hlt : b < c
    · rw [if_pos hlt]
      exact ih e post c (some x) (fun y hy => hall y (by simp [hy])) he
    · rw [if_neg hlt]
      exact ih e post b be (fun y hy => hall y (by simp [hy])) he

/-- When every score is defined and below the threshold (and the accumulator
is too), the entry loop returns no match. -/
theorem find_match_go_all_low (q : List Char) :
    ∀ (l : List MediaList) (b : ℚ) (be : Option MediaList),
      b < MINIMUM_CONFIDENCE →
      (∀ x ∈ l, ∃ c, x.media.title.find_match q = some c ∧
        c < MINIMUM_CONFIDENCE) →
      find_match_go q l b be = some none := by
  intro l
  induction l with
  | nil =>
    intro b be hb _
    cases be with
    | none => simp [find_match_go_nil]
    | some e => simp [find_match_go_nil, not_le.mpr hb]
  | cons x rest ih =>
    intro b be hb hall
    obtain ⟨c, hc, hlow⟩ := hall x (by simp)
    have hne1 : c ≠ 1 := by
      intro h1
      rw [h1] at hlow
      exact absurd hlow (by norm_num [MINIMUM_CONFIDENCE])
    simp only [find_match_go_cons, hc]
    rw [if_neg hne1]
    by_cases hlt : b < c
    · rw [if_pos hlt]
      exact ih c (some x) hlow (fun y hy => hall y (by simp [hy]))
    · rw [if_neg hlt]
      exact ih b be hb (fun y hy => hall y (by simp [hy]))

/-- When no score is exactly 1, all scores are bounded by an attained
maximum `M ≥ 0.8`, and the accumulator is still below `M`, the entry loop
returns an entry scoring `M`. -/
theorem find_match_go_reaches_max (q : List Char) (M : ℚ)
    (hM : MINIMUM_CONFIDENCE ≤ M) :
    ∀ (l : List MediaList) (b : ℚ) (be : Option MediaList),
      b < M →
      (∀ x ∈ l, ∃ c, x.media.title.find_match q = some c ∧ c ≠ 1 ∧ c ≤ M) →
      (∃ x ∈ l, x.media.title.find_match q = some M) →
      ∃ e ∈ l, find_match_go q l b be = some (some e) ∧
        e.media.title.find_match q = some M := by
  intro l
  induction l with
  | nil => intro b be _ _ hex; simp at hex
  | cons y rest ih =>
    intro b be hb hall hex
    obtain ⟨cy, hcy, hne1, hley⟩ := hall y (by simp)
    by_cases hyM : cy = M
    · subst hyM
      refine ⟨y, by simp, ?_, hcy⟩
      simp only [find_match_go_cons, hcy]
      rw [if_neg hne1, if_pos hb]
      exact find_match_go_stay q rest cy y hM
        (fun x hx => hall x (by simp [hx]))
    · have hex' : ∃ x ∈ rest, x.media.title.find_match q = some M := by
        rcases hex with ⟨x, hx, hxM⟩
        rcases List.mem_cons.mp hx with rfl | hx2
        · rw [hcy] at hxM
          exact absurd (Option.some.inj hxM) hyM
        · exact ⟨x, hx2, hxM⟩
      have hcyM : cy < M := lt_of_le_of_ne hley hyM
      simp only [find_match_go_cons, hcy]
      rw [if_neg hne1]
      by_cases hlt : b < cy
      · rw [if_pos hlt]
        obtain ⟨e, he, hgo, heM⟩ := ih cy (some y) hcyM
          (fun x hx => hall x (by simp [hx])) hex'
        exact ⟨e, by simp [he], hgo, heM⟩
      · rw [if_neg hlt]
        obtain ⟨e, he, hgo, heM⟩ := ih b be hb
          (fun x hx => hall x (by simp [hx])) hex'
        exact ⟨e, by simp [he], hgo, heM⟩

/-- **C3.** `MediaListGroup::find_match` returns the first entry in list
order scoring exactly 1, short-circuiting the rest; with no exact score it
returns an entry attaining the maximum score when that maximum reaches 0.8;
and when every entry scores below 0.8 it returns none. -/
theorem find_match_best_entry_spec (g : MediaListGroup) (title : List Char) :
    (∀ (pre : List MediaList) (e : MediaList) (post : List MediaList),
      g.entries = pre ++ e :: post →
      (∀ x ∈ pre, ∃ c, x.media.title.find_match (toLower title) = some c ∧
        c ≠ 1) →
      e.media.title.find_match (toLower title) = some 1 →
      g.find_match title = some (some e))
    ∧ (∀ M : ℚ,
      (∀ x ∈ g.entries, ∃ c, x.media.title.find_match (toLower title) = some c ∧
        c ≠ 1 ∧ c ≤ M) →
      (∃ x ∈ g.entries, x.media.title.find_match (toLower title) = some M) →
      MINIMUM_CONFIDENCE ≤ M →
      ∃ e ∈ g.entries, g.find_match title = some (some e) ∧
        e.media.title.find_match (toLower title) = some M)
    ∧ ((∀ x ∈ g.entries, ∃ c, x.media.title.find_match (toLower title) = some c ∧
        c < MINIMUM_CONFIDENCE) →
      g.find_match title = some none) := by
  refine ⟨?_, ?_, ?_⟩
  · intro pre e post hsplit hall he
    rw [MediaListGroup.find_match, hsplit]
    exact find_match_go_first_exact (toLower title) pre e post 0 none hall he
  · intro M hall hex hM
    have h0 : (0 : ℚ) < M :=
      lt_of_lt_of_le (by norm_num [MINIMUM_CONFIDENCE]) hM
    obtain ⟨e, he, hgo, heM⟩ := find_match_go_reaches_max (toLower title) M hM
      g.entries 0 none h0 hall hex
    exact ⟨e, he, by rw [MediaListGroup.find_match]; exact hgo, heM⟩
  · intro hall
    rw [MediaListGroup.find_match]
    exact find_match_go_all_low (toLower title) g.entries 0 none
      (by norm_num [MINIMUM_CONFIDENCE]) hall

/-- Witness for C3: a single-entry list with an exact title match returns
that entry. -/
theorem find_match_best_entry_spec_witness :
    MediaListGroup.find_match
      ⟨[⟨1, 3, ⟨1, ⟨some (("ab").toList), none, none, ("ab").toList⟩⟩⟩]⟩
      (("ab").toList) =
      some (some ⟨1, 3, ⟨1, ⟨some (("ab").toList), none, none,
        ("ab").toList⟩⟩⟩) :=
  (find_match_best_entry_spec
    ⟨[⟨1, 3, ⟨1, ⟨some (("ab").toList), none, none, ("ab").toList⟩⟩⟩]⟩
    (("ab").toList)).1 []
    ⟨1, 3, ⟨1, ⟨some (("ab").toList), none, none, ("ab").toList⟩⟩⟩ [] rfl
    (by simp) (by decide)

/-- The strict-improvement update of the Rust loops is a `max`. -/
theorem if_lt_eq_max (b c : ℚ) : (if b < c then c else b) = max b c := by
  rcases lt_or_ge b c with h | h
  · rw [if_pos h, max_eq_right (le_of_lt h)]
  · rw [if_neg (not_lt.mpr h), max_eq_left h]

/-- The if-update fold of the code equals a `max` fold over the mapped
scores. -/
theorem foldl_if_update_eq_max (f : List Char → ℚ) :
    ∀ (l : List (List Char)) (b : ℚ),
      l.foldl (fun acc v => if acc < f v then f v else acc) b =
      (l.map f).foldl max b := by
  intro l
  induction l with
  | nil => intro b; rfl
  | cons v rest ih =>
    intro b
    simp only [List.foldl_cons, List.map_cons]
    rw [ih, if_lt_eq_max]

/-- The direct pass computes the specification's maximum similarity. -/
theorem directPass_eq_spec (t : MediaTitle) (q : List Char) :
    directPass q t.variants 0 = directBestSpec t q :=
  foldl_if_update_eq_max (fun v => normalized_levenshtein q v) t.variants 0

/-- A `max` fold never drops below its starting value. -/
theorem foldl_max_init_le : ∀ (l : List ℚ) (b : ℚ), b ≤ l.foldl max b := by
  intro l
  induction l with
  | nil => intro b; exact le_refl b
  | cons x rest ih =>
    intro b
    exact le_trans (le_max_left b x) (ih (max b x))

/-- A `max` fold of bounded values from a bounded start stays bounded. -/
theorem foldl_max_le : ∀ (l : List ℚ) (b B : ℚ), b ≤ B → (∀ x ∈ l, x ≤ B) →
    l.foldl max b ≤ B := by
  intro l
  induction l with
  | nil => intro b B hb _; exact hb
  | cons x rest ih =>
    intro b B hb hall
    exact ih (max b x) B (max_le hb (hall x (by simp)))
      (fun y hy => hall y (by simp [hy]))

/-- A normalized Levenshtein similarity never exceeds 1. -/
theorem normalized_levenshtein_le_one (a b : List Char) :
    normalized_levenshtein a b ≤ 1 := by
  rw [normalized_levenshtein]
  split
  · exact le_refl 1
  · have h : (0 : ℚ) ≤ ((levenshteinDistance a b : ℕ) : ℚ) /
        ((max a.length b.length : ℕ) : ℚ) :=
      div_nonneg (Nat.cast_nonneg _) (Nat.cast_nonneg _)
    linarith

/-- Unfolding of the fallback loop on a cons cell. -/
theorem fallbackPass_cons (mq v : List Char) (rest : List (List Char))
    (b : ℚ) :
    fallbackPass mq (v :: rest) b =
      match massagedForm v with
      | none => none
      | some mv =>
        fallbackPass mq rest
          (if b < max (normalized_levenshtein mq mv - 1/20) 0 then
            max (normalized_levenshtein mq mv - 1/20) 0
          else b) :=
  rfl

/-- The fallback loop equals the specification's penalty-scored list folded
with `max`, whenever every trimming returns (and is `none` otherwise). -/
theorem fallbackPass_eq_spec (mq : List Char) :
    ∀ (l : List (List Char)) (b : ℚ),
      fallbackPass mq l b =
        (l.mapM (fun v => (massagedForm v).map
          (fun mv => max (normalized_levenshtein mq mv - 1/20) 0))).map
          (fun cs => cs.foldl max b) := by
  intro l
  induction l with
  | nil => intro b; rfl
  | cons v rest ih =>
    intro b
    rw [fallbackPass_cons, List.mapM_cons]
    cases hmv : massagedForm v with
    | none => simp
    | some mv =>
      dsimp only
      rw [ih]
      simp only [if_lt_eq_max]
      cases hrest : rest.mapM (fun v => (massagedForm v).map
          (fun mv => max (normalized_levenshtein mq mv - 1/20) 0)) with
      | none => simp
      | some cs => simp [List.foldl_cons]

/-- Every score produced by a successful fallback mapping comes from some
variant. -/
theorem mapM_some_mem (f : List Char → Option ℚ) :
    ∀ (l : List (List Char)) (cs : List ℚ), l.mapM f = some cs →
      ∀ c ∈ cs, ∃ v ∈ l, f v = some c := by
  intro l
  induction l with
  | nil =>
    intro cs h c hc
    simp only [List.mapM_nil, Option.pure_def, Option.some.injEq] at h
    subst h
    simp at hc
  | cons v rest ih =>
    intro cs h c hc
    rw [List.mapM_cons] at h
    cases hv : f v with
    | none => rw [hv] at h; simp at h
    | some b =>
      rw [hv] at h
      cases hrest : rest.mapM f with
      | none => rw [hrest] at h; simp at h
      | some bs =>
        rw [hrest] at h
        simp only [Option.pure_def, Option.bind_eq_bind, Option.some_bind,
          Option.some.injEq] at h
        subst h
        rcases List.mem_cons.mp hc with rfl | hc2
        · exact ⟨v, by simp, hv⟩
        · obtain ⟨w, hw, hfw⟩ := ih bs hrest c hc2
          exact ⟨w, by simp [hw], hfw⟩

/-- **C4 amended.** The title score over the lower-cased present variants:
exact variant equality returns 1 immediately; the direct pass's maximum is
returned when it reaches 0.8; only below the threshold does the fallback
pass run, each massaged similarity penalized by 0.05 floored at 0 and the
running maximum of both passes returned (an `Option` equality — the
fallback's trimming can fail to return, cf. the trimming bug); every
returned score lies in [0,1]; with no variants the score is 0 exactly when
trimming the massaged query returns; and the preferred title never
participates. -/
theorem title_score_spec (t : MediaTitle) (q : List Char) :
    (q ∈ t.variants → t.find_match q = some 1)
    ∧ (q ∉ t.variants → MINIMUM_CONFIDENCE ≤ directBestSpec t q →
      t.find_match q = some (directBestSpec t q))
    ∧ (q ∉ t.variants → directBestSpec t q < MINIMUM_CONFIDENCE →
      t.find_match q = (fallbackScoresSpec t q).map
        (fun cs => cs.foldl max (directBestSpec t q)))
    ∧ (∀ r, t.find_match q = some r → 0 ≤ r ∧ r ≤ 1)
    ∧ (t.variants = [] → t.find_match q = (massagedForm q).map (fun _ => 0))
    ∧ (∀ p, (MediaTitle.mk t.romaji t.english t.native p).find_match q =
      t.find_match q) := by
  refine ⟨?_, ?_, ?_, ?_, ?_, ?_⟩
  · intro h
    rw [MediaTitle.find_match, if_pos h]
  · intro h1 h2
    rw [MediaTitle.find_match, if_neg h1]
    rw [if_pos (by rw [directPass_eq_spec]; exact h2), directPass_eq_spec]
  · intro h1 h2
    rw [MediaTitle.find_match, if_neg h1]
    rw [if_neg (by rw [directPass_eq_spec]; exact not_le.mpr h2)]
    cases hmq : massagedForm q with
    | none =>
      simp [fallbackScoresSpec, hmq]
    | some mq =>
      dsimp only
      rw [fallbackPass_eq_spec mq t.variants, directPass_eq_spec]
      simp [fallbackScoresSpec, hmq]
  · intro r hr
    rw [MediaTitle.find_match] at hr
    by_cases h1 : q ∈ t.variants
    · rw [if_pos h1, Option.some.injEq] at hr
      subst hr
      norm_num
    · rw [if_neg h1] at hr
      by_cases h2 : MINIMUM_CONFIDENCE ≤ directPass q t.variants 0
      · rw [if_pos h2, Option.some.injEq] at hr
        subst hr
        rw [directPass_eq_spec, directBestSpec]
        constructor
        · exact foldl_max_init_le _ 0
        · refine foldl_max_le _ 0 1 (by norm_num) ?_
          intro x hx
          obtain ⟨v, hv, rfl⟩ := List.mem_map.mp hx
          exact normalized_levenshtein_le_one q v
      · rw [if_neg h2] at hr
        cases hmq : massagedForm q with
        | none =>
          rw [hmq] at hr
          simp at hr
        | some mq =>
          rw [hmq] at hr
          dsimp only at hr
          rw [fallbackPass_eq_spec] at hr
          cases hcs : t.variants.mapM (fun v => (massagedForm v).map
              (fun mv => max (normalized_levenshtein mq mv - 1/20) 0)) with
          | none => rw [hcs] at hr; exact absurd hr (by simp)
          | some cs =>
            rw [hcs] at hr
            simp only [Option.map_some', Option.some.injEq] at hr
            subst hr
            have hdb0 : 0 ≤ directPass q t.variants 0 := by
              rw [directPass_eq_spec, directBestSpec]
              exact foldl_max_init_le _ 0
            have hdb1 : directPass q t.variants 0 ≤ 1 := by
              have hlow := not_le.mp h2
              have h45 : MINIMUM_CONFIDENCE ≤ 1 := by
                norm_num [MINIMUM_CONFIDENCE]
              linarith
            have hcsb : ∀ c ∈ cs, 0 ≤ c ∧ c ≤ 1 := by
              intro c hc
              obtain ⟨v, hv, hfv⟩ := mapM_some_mem _ t.variants cs hcs c hc
              cases hmv : massagedForm v with
              | none => rw [hmv] at hfv; exact absurd hfv (by simp)
              | some mv =>
                rw [hmv] at hfv
                simp only [Option.map_some', Option.some.injEq] at hfv
                subst hfv
                constructor
                · exact le_max_right _ 0
                · apply max_le
                  · have hle := normalized_levenshtein_le_one mq mv
                    linarith
                  · norm_num
            constructor
            · exact le_trans hdb0 (foldl_max_init_le cs _)
            · exact foldl_max_le cs _ 1 hdb1 (fun x hx => (hcsb x hx).2)
  · intro hv
    rw [MediaTitle.find_match, hv]
    rw [if_neg (by simp)]
    rw [if_neg (by
      rw [show directPass q ([] : List (List Char)) 0 = (0 : ℚ) from rfl]
      norm_num [MINIMUM_CONFIDENCE])]
    cases hmq : massagedForm q with
    | none => simp
    | some mq =>
      dsimp only
      rw [show fallbackPass mq ([] : List (List Char))
        (directPass q ([] : List (List Char)) 0) = some 0 from rfl]
      simp
  · intro p
    rfl

/-- **C4 counterexample.** With no variants and the query `"!!!"` the code
does not return 0.0: the fallback pass trims the massaged query and the
trimming panics, so the matcher produces nothing. -/
theorem title_score_no_variants_counterexample :
    (MediaTitle.mk none none none (("x").toList)).find_match
      (("!!!").toList) = none
    ∧ (MediaTitle.mk none none none (("x").toList)).find_match
      (("!!!").toList) ≠ some 0 := by
  have h1 : (MediaTitle.mk none none none (("x").toList)).find_match
      (("!!!").toList) = none := by
    rw [MediaTitle.find_match]
    rw [if_neg (by decide)]
    rw [if_neg (by
      rw [show directPass (("!!!").toList)
        (MediaTitle.mk none none none (("x").toList)).variants 0 = (0 : ℚ)
        from rfl]
      norm_num [MINIMUM_CONFIDENCE])]
    rw [show massagedForm (("!!!").toList) = none from by decide]
  refine ⟨h1, fun hc => ?_⟩
  rw [h1] at hc
  exact Option.noConfusion hc

/-- Witness for the amended C4: an exact variant match scores 1. -/
theorem title_score_spec_witness :
    (MediaTitle.mk (some (("ab").toList)) none none
      (("ab").toList)).find_match (("ab").toList) = some 1 :=
  (title_score_spec
    (MediaTitle.mk (some (("ab").toList)) none none (("ab").toList))
    (("ab").toList)).1 (by decide)

/-- Inversion of `afterOpenParen`: it consumed an optional opening
parenthesis and the mandatory space. -/
theorem afterOpenParen_sound (l r : List Char)
    (h : afterOpenParen l = some r) :
    l = '(' :: ' ' :: r ∨ l = ' ' :: r := by
  unfold afterOpenParen at h
  split at h
  · exact Or.inl (by simp_all)
  · exact Or.inr (by simp_all)
  · exact absurd h (by simp)

/-- Inversion of the generic paren matcher: a successful match removed a
space, an optional `(`, a `core` body and an optional `)`. -/
theorem suffixRuleRev_sound (core : List Char → Option (List Char))
    (Body : List Char → Prop)
    (hcore : ∀ l r, core l = some r → ∃ b, Body b ∧ l = b.reverse ++ r) :
    ∀ (rev r : List Char), suffixRuleRev core rev = some r →
      ∃ (p q : Bool) (b : List Char), Body b ∧
        rev = (' ' :: (optParen p '(' ++ (b ++ optParen q ')'))).reverse ++ r := by
  intro rev r h
  unfold suffixRuleRev at h
  split at h
  · rename_i r1
    cases hc : core r1 with
    | none => rw [hc] at h; simp at h
    | some r2 =>
      rw [hc] at h
      dsimp only at h
      obtain ⟨b, hB, hb⟩ := hcore r1 r2 hc
      rcases afterOpenParen_sound r2 r h with h2 | h2
      · refine ⟨true, true, b, hB, ?_⟩
        subst hb h2
        simp [optParen, List.reverse_append, List.append_assoc]
      · refine ⟨false, true, b, hB, ?_⟩
        subst hb h2
        simp [optParen, List.reverse_append, List.append_assoc]
  · rename_i hnp
    cases hc : core rev with
    | none => rw [hc] at h; simp at h
    | some r2 =>
      rw [hc] at h
      dsimp only at h
      obtain ⟨b, hB, hb⟩ := hcore rev r2 hc
      rcases afterOpenParen_sound r2 r h with h2 | h2
      · refine ⟨true, false, b, hB, ?_⟩
        subst h2
        rw [hb]
        simp [optParen, List.reverse_append, List.append_assoc]
      · refine ⟨false, false, b, hB, ?_⟩
        subst h2
        rw [hb]
        simp [optParen, List.reverse_append, List.append_assoc]

/-- Inversion of the year body: four characters `20[2-4]\d`. -/
theorem yearCore_sound (l r : List Char) (h : yearCore l = some r) :
    ∃ b, (∃ d1 d2 : Char, (d1 = '2' ∨ d1 = '3' ∨ d1 = '4') ∧
      d2.isDigit = true ∧ b = ['2', '0', d1, d2]) ∧ l = b.reverse ++ r := by
  unfold yearCore at h
  split at h
  · rename_i d2 d1 rest
    split at h
    · rename_i hcond
      refine ⟨['2', '0', d1, d2], ⟨d1, d2, hcond.1, hcond.2, rfl⟩, ?_⟩
      simp_all
    · exact absurd h (by simp)
  · exact absurd h (by simp)

/-- Inversion of the `word\d` body: the fixed word plus one digit. -/
theorem wordDigitCore_sound (word : List Char) (l r : List Char)
    (h : wordDigitCore word.reverse l = some r) :
    ∃ b, (∃ n : Char, n.isDigit = true ∧ b = word ++ [n]) ∧
      l = b.reverse ++ r := by
  unfold wordDigitCore at h
  split at h
  · rename_i d rest
    split at h
    · rename_i hcond
      obtain ⟨hd, hpre⟩ := hcond
      obtain ⟨tail, htail⟩ := List.isPrefixOf_iff_prefix.mp hpre
      refine ⟨word ++ [d], ⟨d, hd, rfl⟩, ?_⟩
      have hr : r = rest.drop word.reverse.length := (Option.some.inj h).symm
      have hdrop : rest.drop word.reverse.length = tail := by
        rw [← htail]
        exact List.drop_left word.reverse tail
      rw [hr, hdrop, ← htail]
      simp [List.reverse_append]
    · exact absurd h (by simp)
  · exact absurd h (by simp)

/-- Inversion of the reversed digit-run scanner. -/
theorem digitsThenSpaceRev_sound :
    ∀ (l r : List Char), digitsThenSpaceRev l = some r →
      ∃ ds : List Char, (∀ c ∈ ds, c.isDigit = true) ∧ l = ds ++ ' ' :: r := by
  intro l
  induction l with
  | nil => intro r h; simp [digitsThenSpaceRev] at h
  | cons c rest ih =>
    intro r h
    rw [show digitsThenSpaceRev (c :: rest) = if c = ' ' then some rest
      else if c.isDigit then digitsThenSpaceRev rest else none from rfl] at h
    by_cases hsp : c = ' '
    · rw [if_pos hsp] at h
      exact ⟨[], by simp, by simp [hsp, Option.some.inj h]⟩
    · rw [if_neg hsp] at h
      by_cases hd : c.isDigit
      · rw [if_pos hd] at h
        obtain ⟨ds, hds, hl⟩ := ih r h
        refine ⟨c :: ds, ?_, by simp [hl]⟩
        intro x hx
        rcases List.mem_cons.mp hx with rfl | hx2
        · exact hd
        · exact hds x hx2
      · rw [if_neg hd] at h
        exact absurd h (by simp)

/-- Inversion of the ordinal-season rule: a space, a nonempty digit run, an
ordinal suffix, then ` season`, all at the end. -/
theorem ordinalSeasonRule_sound (rev r : List Char)
    (h : ordinalSeasonRule rev = some r) :
    ∃ d, OrdinalSeasonDecoration d ∧ rev = d.reverse ++ r := by
  unfold ordinalSeasonRule at h
  split at h
  · rename_i o2 o1 dg rest
    split at h
    · rename_i hcond
      obtain ⟨hop, hdg⟩ := hcond
      obtain ⟨ds, hds, hl⟩ := digitsThenSpaceRev_sound (dg :: rest) r h
      have hdsne : ds ≠ [] := by
        intro hnil
        rw [hnil, List.nil_append] at hl
        have : dg = ' ' := (List.cons.injEq .. ▸ hl).1
        rw [this] at hdg
        exact absurd hdg (by decide)
      refine ⟨' ' :: (ds.reverse ++ ([o1, o2] ++ (" season").toList)),
        ⟨ds.reverse, o1, o2, by simpa using hdsne,
          fun c hc => hds c (List.mem_reverse.mp hc), hop, rfl⟩, ?_⟩
      have hrev : (' ' :: (ds.reverse ++ ([o1, o2] ++ (" season").toList))).reverse =
          'n' :: 'o' :: 's' :: 'a' :: 'e' :: 's' :: ' ' :: o2 :: o1 ::
            (ds ++ [' ']) := by
        simp [List.reverse_append]
      rw [hrev]
      simp [hl]
    · exact absurd h (by simp)
  · exact absurd h (by simp)

/-- Inversion of the bare-digit rule. -/
theorem bareDigitRule_sound (rev r : List Char)
    (h : bareDigitRule rev = some r) :
    ∃ d, BareDigitDecoration d ∧ rev = d.reverse ++ r := by
  unfold bareDigitRule at h
  split at h
  · rename_i dg rest
    split at h
    · rename_i hd
      exact ⟨[' ', dg], ⟨dg, hd, rfl⟩, by simp_all⟩
    · exact absurd h (by simp)
  · exact absurd h (by simp)

/-- A rule whose reversed matcher removes a `Shape` decoration suffix is a
sound end-anchored decoration remover. -/
theorem stripSuffix_sound (Shape : List Char → Prop)
    (rule : List Char → Option (List Char))
    (hrule : ∀ rev r, rule rev = some r → ∃ d, Shape d ∧ rev = d.reverse ++ r) :
    RuleSound Shape rule := by
  intro s
  cases hr : rule s.reverse with
  | none => exact Or.inl (by rw [stripSuffix, hr])
  | some r =>
    obtain ⟨d, hd, heq⟩ := hrule s.reverse r hr
    refine Or.inr ⟨d, hd, ?_⟩
    have hs := congrArg List.reverse heq
    rw [List.reverse_reverse, List.reverse_append, List.reverse_reverse] at hs
    rw [stripSuffix, hr]
    exact hs

/-- The year rule is sound for the year decoration shape. -/
theorem yearRule_sound : RuleSound YearDecoration yearRule := by
  apply stripSuffix_sound
  intro rev r h
  obtain ⟨p, q, b, ⟨d1, d2, h1, h2, hb⟩, heq⟩ :=
    suffixRuleRev_sound yearCore _ yearCore_sound rev r h
  exact ⟨' ' :: (optParen p '(' ++ (b ++ optParen q ')')),
    ⟨p, q, d1, d2, h1, h2, by rw [hb]⟩, heq⟩

/-- The cour/season/part rules are sound for their word decoration shapes. -/
theorem wordDigitRule_sound (word : List Char) :
    RuleSound (WordDigitDecoration word)
      (suffixRuleRev (wordDigitCore word.reverse)) := by
  apply stripSuffix_sound
  intro rev r h
  obtain ⟨p, q, b, ⟨n, hn, hb⟩, heq⟩ :=
    suffixRuleRev_sound (wordDigitCore word.reverse) _
      (wordDigitCore_sound word) rev r h
  exact ⟨' ' :: (optParen p '(' ++ (b ++ optParen q ')')),
    ⟨p, q, n, hn, by rw [hb, List.append_assoc]⟩, heq⟩

/-- **C7 counterexample.** The code's massaging differs from the claim's
literal six rules: the code strips the unparenthesized `" season 2"` (the
parentheses in the regexes are optional) where the claim's reading strips
only the bare digit, and the code strips `" 100th season"` (any `\d+`
ordinal) where the claim's 1–90 reading strips nothing. -/
theorem massaging_rules_claim_counterexample :
    massage (("abc season 2").toList) = ("abc").toList
    ∧ claimMassageStrict (("abc season 2").toList) = ("abc season").toList
    ∧ massage (("abc 100th season").toList) = ("abc").toList
    ∧ claimMassageStrict (("abc 100th season").toList) =
        ("abc 100th season").toList := by
  exact ⟨by decide, by decide, by decide, by decide⟩

/-- **C7 amended.** The massaging pipeline applies exactly six rules in the
claimed order — year, ordinal season, cour, season, part, bare digit — each
removing (only) a decoration of its declared shape from the end of the
string when it changes the string at all, with the parentheses of the
year/cour/season/part shapes each independently optional and any nonempty
digit run allowed in the ordinal; surrounding-character trimming follows the
massaging in the fallback normalization. -/
theorem massaging_pipeline_spec :
    (∀ s : List Char, massage s =
      stripSuffix bareDigitRule (stripSuffix partRule (stripSuffix seasonRule
        (stripSuffix courRule (stripSuffix ordinalSeasonRule
          (stripSuffix yearRule s))))))
    ∧ RuleSound YearDecoration yearRule
    ∧ RuleSound OrdinalSeasonDecoration ordinalSeasonRule
    ∧ RuleSound (WordDigitDecoration (("cour ").toList)) courRule
    ∧ RuleSound (WordDigitDecoration (("season ").toList)) seasonRule
    ∧ RuleSound (WordDigitDecoration (("part ").toList)) partRule
    ∧ RuleSound BareDigitDecoration bareDigitRule
    ∧ (∀ s : List Char, massagedForm s =
      remove_special_surrounding_characters (massage s)) := by
  refine ⟨fun s => rfl, yearRule_sound, ?_, ?_, ?_, ?_, ?_, fun s => rfl⟩
  · exact stripSuffix_sound _ _ ordinalSeasonRule_sound
  · exact wordDigitRule_sound (("cour ").toList)
  · exact wordDigitRule_sound (("season ").toList)
  · exact wordDigitRule_sound (("part ").toList)
  · exact stripSuffix_sound _ _ bareDigitRule_sound
